import Mathlib

/-!
# Verification of the green-kernels field-translation and upward-pass code

Shallow embedding of `src/field/src/field.rs` and
`src/fmm/src/field_translation/source.rs` from the `green-kernels`
repository, together with proofs about the embedded definitions.

External collaborators of the code under `src/` (the analytic kernel, the
Morton-octree crate, the FFT routine and the dense linear-algebra backend)
are modelled from the specification where their behaviour matters and are
otherwise abstracted into parameters.
-/

namespace GreenKernels

/-! ## Coefficient counts and SVD rank selection (`field.rs`) -/

/-- From `SvdFieldTranslationKiFmm::ncoeffs` (field.rs): `6 * (order - 1).pow(2) + 2`. -/
def svdNcoeffs (order : Nat) : Nat := 6 * (order - 1) ^ 2 + 2

/-- From `FftFieldTranslationKiFmm::ncoeffs` (field.rs): `6 * (order - 1).pow(2) + 2`. -/
def fftNcoeffs (order : Nat) : Nat := 6 * (order - 1) ^ 2 + 2

/-- Rank selection in `SvdFieldTranslationKiFmm::new` (field.rs): a requested rank
`Some k` is kept when `k <= ncoeffs(order)` and silently clamped to `ncoeffs(order)`
otherwise; an unspecified rank gives `50`. -/
def svdStoredRank (k : Option Nat) (order : Nat) : Nat :=
  match k with
  | some k => if k ≤ svdNcoeffs order then k else svdNcoeffs order
  | none => 50

/-- Shapes `(rows, cols)` of the three stored SVD M2L operators. -/
structure SvdM2lShapes where
  u : Nat × Nat
  stBlock : Nat × Nat
  c : Nat × Nat
deriving DecidableEq, Repr

/-- Shape content of `SvdFieldTranslationKiFmm::compute_m2l_operators` (field.rs).
The singular-value decompositions themselves are performed by the external `rlst`
backend; only the shapes are modelled.  The fat matrix is
`ncoeffs × (ncoeffs * ntransfer_vectors)` and its left factor (`Mode::All`) has
`ncoeffs` rows, truncated by `u.block((0,0),(mu,k))` to `k` columns; the thin matrix
is `(ncoeffs * ntransfer_vectors) × ncoeffs` and its right factor (`Mode::All`) has
`ncoeffs` columns, truncated by `st.block((0,0),(k,nst))` to `k` rows; `c` is filled
with one `k × k` block per transfer vector. -/
def svdOperatorShapes (order k ntv : Nat) : SvdM2lShapes :=
  let nc := svdNcoeffs order
  { u := (nc, k), stBlock := (k, nc), c := (k, k * ntv) }

/-! ## The M2L scale factor (`field.rs`, `m2l_scale`) -/

/-- From `m2l_scale` (field.rs): the Rust function panics for `level < 2`
(modelled as `none`), returns `1/2` at level 2 and `2^(level - 3)` for deeper
levels (`2_f64.powf((level - 3) as f64)`, exact for these exponents). -/
def m2lScale (level : Nat) : Option ℚ :=
  if level < 2 then none
  else if level = 2 then some (1 / 2)
  else some (2 ^ (level - 3))

/-! ## List helpers: flat storage indexed in constant-size blocks -/

theorem length_bind_const {α β : Type _} (l : List α) (f : α → List β) (c : Nat)
    (h : ∀ x ∈ l, (f x).length = c) : (l.flatMap f).length = l.length * c := by
  induction l with
  | nil => simp
  | cons a t ih =>
    simp only [List.flatMap_cons, List.length_append, List.length_cons]
    rw [h a (by simp), ih (fun x hx => h x (by simp [hx]))]
    ring

theorem get?_bind_const {α β : Type _} (l : List α) (f : α → List β) (c : Nat)
    (h : ∀ x ∈ l, (f x).length = c) :
    ∀ (i r : Nat) (hi : i < l.length), r < c →
      (l.flatMap f).get? (i * c + r) = (f (l.get ⟨i, hi⟩)).get? r := by
  induction l with
  | nil => intro i r hi _; simp at hi
  | cons a t ih =>
    intro i r hi hr
    have hfa : (f a).length = c := h a (by simp)
    cases i with
    | zero =>
      simp only [List.flatMap_cons, Nat.zero_mul, Nat.zero_add]
      rw [List.get?_eq_getElem?, List.getElem?_append_left (by omega),
        ← List.get?_eq_getElem?]
      rfl
    | succ i =>
      simp only [List.flatMap_cons]
      rw [List.get?_eq_getElem?,
        List.getElem?_append_right (by rw [hfa]; nlinarith),
        ← List.get?_eq_getElem?]
      have harith : (i + 1) * c + r - (f a).length = i * c + r := by
        rw [hfa]; ring_nf; omega
      rw [harith, ih (fun x hx => h x (by simp [hx])) i r (by simpa using hi) hr]
      rfl

theorem drop_take_bind {α β : Type _} (l : List α) (f : α → List β) (c : Nat)
    (h : ∀ x ∈ l, (f x).length = c) :
    ∀ (i : Nat) (hi : i < l.length),
      ((l.flatMap f).drop (i * c)).take c = f (l.get ⟨i, hi⟩) := by
  induction l with
  | nil => intro i hi; simp at hi
  | cons a t ih =>
    intro i hi
    have hfa : (f a).length = c := h a (by simp)
    cases i with
    | zero =>
      simp only [List.flatMap_cons, Nat.zero_mul, List.drop_zero]
      rw [List.take_left' hfa]
      rfl
    | succ i =>
      simp only [List.flatMap_cons]
      rw [show (i + 1) * c = (f a).length + i * c by rw [hfa]; ring,
        List.drop_append, ih (fun x hx => h x (by simp [hx])) i (by simpa using hi)]
      rfl

/-! ## The FFT kernel-data rearrangement (`field.rs`) -/

/-- The rearrangement loop of `FftFieldTranslationKiFmm::compute_m2l_operators`
(field.rs), also exercised by `test_kernel_rearrangement`: regroup each halo
position's flat kernel data by frequency, then halo child, then sibling, reading
`current_vector[j * size_real * 8 + k * size_real + l]`.  Rust indexing panics out
of bounds; the model reads the default `z` there. -/
def rearrangeKernelData {α : Type _} (sizeReal : Nat) (z : α)
    (kernelData : List (List α)) : List (List α) :=
  kernelData.map fun current =>
    (List.range sizeReal).flatMap fun l =>
      (List.range 8).flatMap fun k =>
        (List.range 8).map fun j =>
          current.getD (j * sizeReal * 8 + k * sizeReal + l) z

end GreenKernels

namespace GreenKernels

/-! ## Claim theorems for the rank, count and scale contracts -/

/-- C8: for every order ≥ 1, both the SVD and the FFT field-translation providers
compute `ncoeffs(order) = 6*(order-1)^2 + 2`, and the two agree. -/
theorem c8_ncoeffs_agree (order : Nat) (h : 1 ≤ order) :
    svdNcoeffs order = 6 * (order - 1) ^ 2 + 2 ∧
      fftNcoeffs order = 6 * (order - 1) ^ 2 + 2 ∧
      svdNcoeffs order = fftNcoeffs order := by
  refine ⟨rfl, rfl, rfl⟩

/-- Witness for C8 at order 5. -/
theorem c8_ncoeffs_agree_witness :
    1 ≤ 5 ∧ (svdNcoeffs 5 = 6 * (5 - 1) ^ 2 + 2 ∧
      fftNcoeffs 5 = 6 * (5 - 1) ^ 2 + 2 ∧ svdNcoeffs 5 = fftNcoeffs 5) :=
  ⟨by decide, c8_ncoeffs_agree 5 (by decide)⟩

/-- C2: a requested SVD rank `k > ncoeffs(order)` is silently clamped to
`ncoeffs(order)` and the operator shapes equal the uncompressed case
(`u : (ncoeffs, ncoeffs)`, `st_block : (ncoeffs, ncoeffs)`,
`c : (ncoeffs, ncoeffs * ntransfer_vectors)`); a rank `k ≤ ncoeffs(order)` is stored
as `k`; an unspecified rank is stored as `50`. -/
theorem c2_svd_rank_clamp (order ntv k : Nat) :
    (svdNcoeffs order < k →
        svdStoredRank (some k) order = svdNcoeffs order ∧
        svdOperatorShapes order (svdStoredRank (some k) order) ntv =
          { u := (svdNcoeffs order, svdNcoeffs order),
            stBlock := (svdNcoeffs order, svdNcoeffs order),
            c := (svdNcoeffs order, svdNcoeffs order * ntv) }) ∧
    (k ≤ svdNcoeffs order → svdStoredRank (some k) order = k) ∧
    svdStoredRank none order = 50 := by
  refine ⟨fun hk => ?_, fun hk => ?_, rfl⟩
  · have hk' : ¬ k ≤ svdNcoeffs order := not_le.mpr hk
    constructor
    · simp [svdStoredRank, hk']
    · simp [svdStoredRank, svdOperatorShapes, hk']
  · simp [svdStoredRank, hk]

/-- Witness for C2 at order 5 (`ncoeffs = 98`), requested rank 100, 316 transfer
vectors. -/
theorem c2_svd_rank_clamp_witness :
    (svdNcoeffs 5 < 100 ∧
      svdStoredRank (some 100) 5 = svdNcoeffs 5 ∧
      svdOperatorShapes 5 (svdStoredRank (some 100) 5) 316 =
        { u := (svdNcoeffs 5, svdNcoeffs 5),
          stBlock := (svdNcoeffs 5, svdNcoeffs 5),
          c := (svdNcoeffs 5, svdNcoeffs 5 * 316) }) ∧
    (60 ≤ svdNcoeffs 5 ∧ svdStoredRank (some 60) 5 = 60) ∧
    svdStoredRank none 5 = 50 :=
  ⟨⟨by decide, (c2_svd_rank_clamp 5 316 100).1 (by decide)⟩,
   ⟨by decide, (c2_svd_rank_clamp 5 316 60).2.1 (by decide)⟩,
   (c2_svd_rank_clamp 5 316 0).2.2⟩

/-- C10: the M2L scale factor is a hard error (modelled `none`) for every level
below 2, equals `1/2` at level 2, and equals `2^(level-3)` for every level ≥ 3. -/
theorem c10_m2l_scale (level : Nat) :
    (level < 2 → m2lScale level = none) ∧
    m2lScale 2 = some (1 / 2) ∧
    (3 ≤ level → m2lScale level = some (2 ^ (level - 3))) := by
  refine ⟨fun h => ?_, rfl, fun h => ?_⟩
  · simp [m2lScale, h]
  · have h2 : ¬ level < 2 := by omega
    have h3 : level ≠ 2 := by omega
    simp [m2lScale, h2, h3]

/-- Witness for C10 at levels 1 and 5. -/
theorem c10_m2l_scale_witness :
    (1 < 2 ∧ m2lScale 1 = none) ∧ (3 ≤ 5 ∧ m2lScale 5 = some (2 ^ (5 - 3))) :=
  ⟨⟨by decide, (c10_m2l_scale 1).1 (by decide)⟩,
   ⟨by decide, (c10_m2l_scale 5).2.2 (by decide)⟩⟩

end GreenKernels

namespace GreenKernels

/-! ## Claim theorems for the kernel rearrangement (C5) -/

/-- The synthetic unrearranged kernel data of `test_kernel_rearrangement`
(field.rs): a single halo position, `size_real = 10`, entry
`1000 * sibling + 100 * halo_child + frequency`. -/
def syntheticKernelVector : List ℕ :=
  (List.range 8).flatMap fun j =>
    (List.range 8).flatMap fun k =>
      (List.range 10).map fun l => 1000 * j + 100 * k + l

set_option maxRecDepth 4000

/-- C5 counterexample: with the synthetic data of the repository's own
rearrangement test (`size_real = 10`), at halo position 0, frequency 0,
halo child 0 and sibling 1, the rearranged entry is `1000`, but the claimed
source index `s*64*size_real + c*size_real + f = 640` is out of bounds of the
`64 * size_real = 640`-long original vector: the claimed equality fails. -/
theorem c5_rearranged_counterexample :
    ((rearrangeKernelData 10 0 [syntheticKernelVector]).getD 0 []).get?
        (0 * 64 + 0 * 8 + 1) = some 1000 ∧
    (([syntheticKernelVector].getD 0 []).get? (1 * 64 * 10 + 0 * 10 + 0)) = none ∧
    ((rearrangeKernelData 10 0 [syntheticKernelVector]).getD 0 []).get?
        (0 * 64 + 0 * 8 + 1) ≠
      (([syntheticKernelVector].getD 0 []).get? (1 * 64 * 10 + 0 * 10 + 0)) := by
  refine ⟨by decide, by decide, by decide⟩

/-- C5 (amended): for every halo position `h`, frequency `f < size_real`, halo
child `c < 8` and sibling `s < 8`, the rearranged layout satisfies
`rearranged[h][f*64 + c*8 + s] = kernel_data[h][s*8*size_real + c*size_real + f]`
(the original layout is sibling-major with a stride of `8 * size_real` per
sibling, not `64 * size_real`). -/
theorem c5_rearranged_layout {α : Type _} (z : α) (sizeReal : Nat)
    (kernelData : List (List α)) (h f c s : Nat)
    (hh : h < kernelData.length) (hf : f < sizeReal) (hc : c < 8) (hs : s < 8)
    (hlen : ∀ v ∈ kernelData, v.length = 64 * sizeReal) :
    ((rearrangeKernelData sizeReal z kernelData).getD h []).get?
        (f * 64 + c * 8 + s) =
      (kernelData.getD h []).get? (s * 8 * sizeReal + c * sizeReal + f) := by
  set cur := kernelData.get ⟨h, hh⟩ with hcur
  have hcurlen : cur.length = 64 * sizeReal := hlen cur (List.get_mem _ _ _)
  have hgetD : kernelData.getD h [] = cur := by
    rw [List.getD_eq_getElem?_getD, List.getElem?_eq_getElem hh]
    rfl
  have hmaplen : h < (rearrangeKernelData sizeReal z kernelData).length := by
    simpa [rearrangeKernelData] using hh
  have hre : (rearrangeKernelData sizeReal z kernelData).getD h [] =
      (List.range sizeReal).flatMap fun l =>
        (List.range 8).flatMap fun k =>
          (List.range 8).map fun j =>
            cur.getD (j * sizeReal * 8 + k * sizeReal + l) z := by
    rw [List.getD_eq_getElem?_getD, List.getElem?_eq_getElem hmaplen]
    simp only [rearrangeKernelData, List.getElem_map, Option.getD_some]
    rw [hcur, List.get_eq_getElem]
  rw [hre, hgetD]
  have hinner : ∀ l ∈ List.range sizeReal,
      ((List.range 8).flatMap fun k =>
        (List.range 8).map fun j =>
          cur.getD (j * sizeReal * 8 + k * sizeReal + l) z).length = 64 := by
    intro l _
    rw [length_bind_const _ _ 8 (by intro x _; simp)]
    simp
  have hidx : f * 64 + c * 8 + s = f * 64 + (c * 8 + s) := by ring
  rw [hidx, get?_bind_const _ _ 64 hinner f (c * 8 + s)
    (by simpa using hf) (by omega)]
  rw [get?_bind_const _ _ 8 (by intro x _; simp) c s (by simpa using hc) hs]
  rw [List.get?_eq_getElem?, List.getElem?_map]
  have hrange8 : (List.range 8)[s]? = some s := by
    rw [List.getElem?_eq_getElem (by simpa using hs)]
    simp
  rw [hrange8]
  have hgr : (List.range sizeReal).get ⟨f, by simpa using hf⟩ = f := by
    simp [List.get_eq_getElem]
  have hgc : (List.range 8).get ⟨c, by simpa using hc⟩ = c := by
    simp [List.get_eq_getElem]
  rw [hgr, hgc]
  have hbound : s * sizeReal * 8 + c * sizeReal + f < cur.length := by
    rw [hcurlen]; nlinarith
  have hidx2 : s * 8 * sizeReal + c * sizeReal + f = s * sizeReal * 8 + c * sizeReal + f := by
    ring
  simp only [Option.map_some']
  rw [List.getD_eq_getElem?_getD, List.getElem?_eq_getElem hbound, Option.getD_some,
    hidx2, List.get?_eq_getElem?, List.getElem?_eq_getElem hbound]

/-- Witness for the amended C5 theorem with the synthetic test data. -/
theorem c5_rearranged_layout_witness :
    ((rearrangeKernelData 10 (0 : ℕ) [syntheticKernelVector]).getD 0 []).get?
        (4 * 64 + 2 * 8 + 1) =
      (([syntheticKernelVector].getD 0 []).get? (1 * 8 * 10 + 2 * 10 + 4)) :=
  c5_rearranged_layout 0 10 [syntheticKernelVector] 0 4 2 1
    (by decide) (by decide) (by decide) (by decide) (by decide)

end GreenKernels

namespace GreenKernels

/-! ## Morton-key geometry (modelled from the spec)

The Morton-octree crate (`bempp_tree`) is not under `src/`; the spec describes a
`MortonKey` as an integer encoding of (anchor coordinates, level) whose derived
keys are pure functions: `parent`, `children` (8, sorted), `siblings` (8,
including self), `neighbors` (26 same-level adjacent cells, excluding
domain-boundary misses), `is_adjacent`, and `from_point(domain, level)`. -/

/-- Modelled from the spec: a Morton key is (anchor coordinates, level). Anchors
are kept as integers so that neighbor offsets can be formed before the domain
bounds check. -/
structure Key where
  x : Int
  y : Int
  z : Int
  level : Nat
deriving DecidableEq, Repr, Inhabited

/-- Modelled from the spec: the parent halves the anchor and decrements the level. -/
def Key.parent (k : Key) : Key := ⟨k.x / 2, k.y / 2, k.z / 2, k.level - 1⟩

/-- Modelled from the spec: the 8 children double the anchor and add each 0/1
offset per axis, enumerated in sorted (z-order) sequence. -/
def Key.children (k : Key) : List Key :=
  (List.range 8).map fun d =>
    ⟨2 * k.x + ((d / 4 : Nat) : Int), 2 * k.y + (((d / 2) % 2 : Nat) : Int),
      2 * k.z + ((d % 2 : Nat) : Int), k.level + 1⟩

/-- Modelled from the spec: the sibling set is the parent's children (8,
including the key itself). -/
def Key.siblings (k : Key) : List Key := k.parent.children

/-- Modelled from the spec: the 26 same-level cells whose anchor differs by a
nonzero `{-1,0,1}` offset per axis, dropping offsets that leave the
`[0, 2^level)` domain cube. -/
def Key.neighbors (k : Key) : List Key :=
  let offsets : List Int := [-1, 0, 1]
  ((offsets.flatMap fun ox => offsets.flatMap fun oy => offsets.map fun oz =>
      (ox, oy, oz)).filter fun o => o ≠ ((0 : Int), (0 : Int), (0 : Int)))
    |>.filterMap fun o =>
      let b : Int := 2 ^ k.level
      let nx := k.x + o.1
      let ny := k.y + o.2.1
      let nz := k.z + o.2.2
      if 0 ≤ nx ∧ nx < b ∧ 0 ≤ ny ∧ ny < b ∧ 0 ≤ nz ∧ nz < b then
        some ⟨nx, ny, nz, k.level⟩
      else none

/-- Modelled from the spec, for same-level keys (the only use made of it in
`compute_m2l_operators`): two cells are adjacent when every anchor coordinate
differs by at most one. -/
def Key.isAdjacent (a b : Key) : Bool :=
  decide (a.level = b.level ∧ (a.x - b.x).natAbs ≤ 1 ∧ (a.y - b.y).natAbs ≤ 1 ∧
    (a.z - b.z).natAbs ≤ 1)

/-- Modelled from the spec: axis-aligned bounding box, an origin and a diameter
per axis. -/
structure Domain where
  ox : ℚ
  oy : ℚ
  oz : ℚ
  dx : ℚ
  dy : ℚ
  dz : ℚ

/-- Modelled from the spec: `MortonKey::from_point` maps a point to the cell at
`level` whose anchor is the floor of the normalised coordinate scaled by
`2^level`. -/
def fromPoint (px py pz : ℚ) (dom : Domain) (level : Nat) : Key :=
  ⟨⌊(px - dom.ox) / dom.dx * 2 ^ level⌋, ⌊(py - dom.oy) / dom.dy * 2 ^ level⌋,
    ⌊(pz - dom.oz) / dom.dz * 2 ^ level⌋, level⟩

/-! ## 3D grids, padding, mirroring and the kernel grid (`field.rs` helpers) -/

/-- Row-major flat index of `(i, j, k)` in an array with inner dimensions
`n × o` (the `Array3D` layout of `bempp_tools`). -/
def idx3 (n o i j k : Nat) : Nat := i * (n * o) + j * o + k

/-- Modelled from the spec: `pad3` (crate `array` module) embeds an `m×n×o`
array into a zero array of size `(m+p1)×(n+p2)×(o+p3)` at offset `(s1,s2,s3)`. -/
def pad3 (a : List ℚ) (m n o p1 p2 p3 s1 s2 s3 : Nat) : List ℚ :=
  (List.range (m + p1)).flatMap fun i =>
    (List.range (n + p2)).flatMap fun j =>
      (List.range (o + p3)).map fun k =>
        if s1 ≤ i ∧ i < s1 + m ∧ s2 ≤ j ∧ j < s2 + n ∧ s3 ≤ k ∧ k < s3 + o then
          a.getD (idx3 n o (i - s1) (j - s2) (k - s3)) 0
        else 0

/-- Modelled from the spec: `flip3` (crate `array` module) mirrors an `m×n×o`
array along every axis. -/
def flip3 (a : List ℚ) (m n o : Nat) : List ℚ :=
  (List.range m).flatMap fun i =>
    (List.range n).flatMap fun j =>
      (List.range o).map fun k =>
        a.getD (idx3 n o (m - 1 - i) (n - 1 - j) (o - 1 - k)) 0

/-- A 3D point, coordinates as rationals. -/
abbrev Pt := ℚ × ℚ × ℚ

/-- From `FftFieldTranslationKiFmm::compute_kernel` (field.rs): evaluate the
external kernel `K` at every convolution-grid point against the single target
point, giving the flat `n×n×n` kernel grid (`n = 2*order - 1`). -/
def computeKernel (K : Pt → Pt → ℚ) (grid : List Pt) (targetPt : Pt) : List ℚ :=
  grid.map fun g => K g targetPt

/-- The V-list test of `compute_m2l_operators` (field.rs): the children of the
target's parent's neighbors that are not adjacent to the target (the Rust code
collects them into a `HashSet`; only membership is used). -/
def vList (target : Key) : List Key :=
  (target.parent.neighbors.flatMap Key.children).filter fun pnc =>
    ! target.isAdjacent pnc

/-! ## The FFT M2L operator precomputation (`field.rs`) -/

/-- The two stored layouts of the FFT M2L operator data
(`FftM2lOperatorData` in the crate's types). -/
structure FftM2lOperatorData (β : Type _) where
  kernelData : List (List β)
  kernelDataRearranged : List (List β)

/-- The representative box of `compute_m2l_operators` (field.rs): the point at
the middle of the domain, encoded at level 3. -/
def fftRepresentativeKey (dom : Domain) : Key :=
  fromPoint (dom.ox + dom.dx / 2) (dom.oy + dom.dy / 2) (dom.oz + dom.dz / 2) dom 3

/-- The sibling set of the representative box (the M2L targets). -/
def fftSiblings (dom : Domain) : List Key := (fftRepresentativeKey dom).siblings

/-- The halo of the representative box's parent (26 positions). -/
def fftHalo (dom : Domain) : List Key := (fftRepresentativeKey dom).parent.neighbors

/-- The children of each halo position (the M2L source candidates). -/
def fftHaloChildren (dom : Domain) : List (List Key) := (fftHalo dom).map Key.children

/-- The frequency-domain block computed for a well-separated source/target pair
in `compute_m2l_operators` (field.rs): the kernel grid of the source's
convolution grid against the representative target-check point (index 0 of the
target's check surface), zero-padded from `m³` to `p³` at offset `(0,0,0)`,
flipped along every axis, and transformed by the external real FFT.  External
collaborators are parameters: `K` is the kernel, `convGridF src` enumerates the
`convolution_grid` points of the source box (folding in `find_corners` of its
equivalent surface and the corner index 7), `surfF k` enumerates the
`compute_surface` points of a box, and `F signal f` is the `f`-th coefficient
written by `rfft3_fftw` on `signal`. -/
def fftKernelBlock {β : Type _} (F : List ℚ → Nat → β) (K : Pt → Pt → ℚ)
    (convGridF : Key → Nat → Pt) (surfF : Key → Nat → Pt)
    (order : Nat) (source target : Key) : List β :=
  let m := 2 * order - 1
  let p := m + 1
  let sizeReal := p * p * (p / 2 + 1)
  let grid := (List.range (m * m * m)).map (convGridF source)
  let kernelGrid := computeKernel K grid (surfF target 0)
  let padded := pad3 kernelGrid m m m (p - m) (p - m) (p - m) 0 0 0
  let flipped := flip3 padded p p p
  (List.range sizeReal).map (F flipped)

/-- The `size_real` of `compute_m2l_operators` (field.rs): with `m = 2*order - 1`
and `p = m + 1`, the number of real-FFT coefficients is `p * p * (p/2 + 1)`. -/
def fftSizeReal (order : Nat) : Nat :=
  let m := 2 * order - 1
  let p := m + 1
  p * p * (p / 2 + 1)

/-- The per-pair dispatch of `compute_m2l_operators` (field.rs): when the source
is in the target's V-list the FFT kernel block is stored, otherwise an explicit
all-zero block of the same `size_real` length
(`Array3D::<c64>::new((p, p, p / 2 + 1))`). -/
def fftBlockOrZero {β : Type _} (z : β) (F : List ℚ → Nat → β) (K : Pt → Pt → ℚ)
    (convGridF : Key → Nat → Pt) (surfF : Key → Nat → Pt)
    (order : Nat) (source target : Key) : List β :=
  if source ∈ vList target then
    fftKernelBlock F K convGridF surfF order source target
  else
    List.replicate (fftSizeReal order) z

/-- The `kernel_data_vec` of `compute_m2l_operators` (field.rs): for each halo
position, the 64 blocks in sibling-major pair order (`for sibling in siblings`,
then `for halo_child in halo_child_set`). -/
def fftKernelDataVec {β : Type _} (z : β) (F : List ℚ → Nat → β) (K : Pt → Pt → ℚ)
    (convGridF : Key → Nat → Pt) (surfF : Key → Nat → Pt)
    (order : Nat) (dom : Domain) : List (List (List β)) :=
  (fftHaloChildren dom).map fun haloChildSet =>
    (fftSiblings dom).flatMap fun sibling =>
      haloChildSet.map fun haloChild =>
        fftBlockOrZero z F K convGridF surfF order haloChild sibling

/-- Structural embedding of `FftFieldTranslationKiFmm::compute_m2l_operators`
(field.rs).  The per-halo flat array concatenates the 64 blocks in pair order
(the Rust code copies block `j` at offset `j * size_real` of a zeroed
`64 * size_real` buffer, reading `kernel_data_vec[i][j]` for `j < 64`), and the
rearranged layout applies the frequency-major regrouping.  The unused
`transfer_vectors` bookkeeping of the Rust function is omitted. -/
def computeM2lOperatorsFft {β : Type _} (z : β) (F : List ℚ → Nat → β)
    (K : Pt → Pt → ℚ) (convGridF : Key → Nat → Pt) (surfF : Key → Nat → Pt)
    (order : Nat) (dom : Domain) : FftM2lOperatorData β :=
  let kernelData := (fftKernelDataVec z F K convGridF surfF order dom).map fun blocks =>
    (List.range 64).flatMap fun j =>
      blocks.getD j (List.replicate (fftSizeReal order) z)
  { kernelData := kernelData
    kernelDataRearranged := rearrangeKernelData (fftSizeReal order) z kernelData }

end GreenKernels

namespace GreenKernels

/-! ## Geometry of the representative box and shape lemmas -/

theorem fftRepresentativeKey_center (dom : Domain) (hdx : dom.dx ≠ 0)
    (hdy : dom.dy ≠ 0) (hdz : dom.dz ≠ 0) :
    fftRepresentativeKey dom = ⟨4, 4, 4, 3⟩ := by
  have h4 : ∀ o d : ℚ, d ≠ 0 → (o + d / 2 - o) / d * 2 ^ 3 = 4 := by
    intro o d hd
    field_simp
    ring
  have hfl : ⌊(4 : ℚ)⌋ = 4 := by norm_num
  simp only [fftRepresentativeKey, fromPoint, h4 _ _ hdx, h4 _ _ hdy, h4 _ _ hdz, hfl]

theorem fftHalo_center (dom : Domain) (hdx : dom.dx ≠ 0) (hdy : dom.dy ≠ 0)
    (hdz : dom.dz ≠ 0) : fftHalo dom = (Key.mk 2 2 2 2).neighbors := by
  rw [fftHalo, fftRepresentativeKey_center dom hdx hdy hdz]
  decide

theorem fftHalo_center_length (dom : Domain) (hdx : dom.dx ≠ 0) (hdy : dom.dy ≠ 0)
    (hdz : dom.dz ≠ 0) : (fftHalo dom).length = 26 := by
  rw [fftHalo_center dom hdx hdy hdz]
  decide

theorem getD_length_const {β : Type _} (l : List (List β)) (d : List β) (c j : Nat)
    (hl : ∀ x ∈ l, x.length = c) (hd : d.length = c) : (l.getD j d).length = c := by
  rw [List.getD_eq_getElem?_getD]
  rcases Nat.lt_or_ge j l.length with hj | hj
  · rw [List.getElem?_eq_getElem hj, Option.getD_some]
    exact hl _ (List.getElem_mem hj)
  · rw [List.getElem?_eq_none hj, Option.getD_none]
    exact hd

theorem fftKernelBlock_length {β : Type _} (F : List ℚ → Nat → β) (K : Pt → Pt → ℚ)
    (convGridF surfF : Key → Nat → Pt) (order : Nat) (source target : Key) :
    (fftKernelBlock F K convGridF surfF order source target).length =
      fftSizeReal order := by
  simp [fftKernelBlock, fftSizeReal]

theorem fftBlockOrZero_length {β : Type _} (z : β) (F : List ℚ → Nat → β)
    (K : Pt → Pt → ℚ) (convGridF surfF : Key → Nat → Pt) (order : Nat)
    (source target : Key) :
    (fftBlockOrZero z F K convGridF surfF order source target).length =
      fftSizeReal order := by
  rw [fftBlockOrZero]
  split
  · exact fftKernelBlock_length F K convGridF surfF order source target
  · simp

theorem fftKernelDataVec_blocks_length {β : Type _} (z : β) (F : List ℚ → Nat → β)
    (K : Pt → Pt → ℚ) (convGridF surfF : Key → Nat → Pt) (order : Nat)
    (dom : Domain) (blocks : List (List β))
    (hblocks : blocks ∈ fftKernelDataVec z F K convGridF surfF order dom) :
    ∀ x ∈ blocks, x.length = fftSizeReal order := by
  obtain ⟨hcs, _, rfl⟩ := List.mem_map.mp hblocks
  intro x hx
  obtain ⟨sib, _, hx2⟩ := List.mem_flatMap.mp hx
  obtain ⟨hc, _, rfl⟩ := List.mem_map.mp hx2
  exact fftBlockOrZero_length z F K convGridF surfF order hc sib

theorem mem_vList_iff (t s : Key) :
    s ∈ vList t ↔
      (∃ pn ∈ t.parent.neighbors, s ∈ pn.children) ∧ t.isAdjacent s = false := by
  simp [vList, List.mem_filter, List.mem_flatMap, Bool.not_eq_true']

end GreenKernels

namespace GreenKernels

/-- C6: for every order ≥ 1 and every domain with positive diameters, the FFT
M2L operator data contains exactly 26 halo positions, each holding
`64` frequency-domain blocks of length `size_real = p*p*(p/2+1)` with
`p = 2*order` (flat per-halo length `64 * size_real`). -/
theorem c6_fft_operator_data {β : Type _} (z : β) (F : List ℚ → Nat → β)
    (K : Pt → Pt → ℚ) (convGridF surfF : Key → Nat → Pt) (order : Nat)
    (dom : Domain) (horder : 1 ≤ order)
    (hdx : 0 < dom.dx) (hdy : 0 < dom.dy) (hdz : 0 < dom.dz) :
    (computeM2lOperatorsFft z F K convGridF surfF order dom).kernelData.length = 26 ∧
      ∀ b ∈ (computeM2lOperatorsFft z F K convGridF surfF order dom).kernelData,
        b.length = 64 * (2 * order * (2 * order) * (2 * order / 2 + 1)) := by
  have hsr : fftSizeReal order = 2 * order * (2 * order) * (2 * order / 2 + 1) := by
    have hp : 2 * order - 1 + 1 = 2 * order := by omega
    simp only [fftSizeReal]
    rw [hp]
  constructor
  · have hlen : (computeM2lOperatorsFft z F K convGridF surfF order dom).kernelData.length
        = (fftHalo dom).length := by
      simp [computeM2lOperatorsFft, fftKernelDataVec, fftHaloChildren]
    rw [hlen, fftHalo_center_length dom hdx.ne' hdy.ne' hdz.ne']
  · intro b hb
    simp only [computeM2lOperatorsFft, List.mem_map] at hb
    obtain ⟨blocks, hblocks, rfl⟩ := hb
    have h1 : ∀ j ∈ List.range 64,
        (blocks.getD j (List.replicate (fftSizeReal order) z)).length =
          fftSizeReal order := by
      intro j _
      exact getD_length_const blocks _ (fftSizeReal order) j
        (fftKernelDataVec_blocks_length z F K convGridF surfF order dom blocks hblocks)
        (by simp)
    rw [length_bind_const _ _ (fftSizeReal order) h1, List.length_range, hsr]

/-- Witness for C6: order 2 on the unit cube, trivial external collaborators. -/
theorem c6_fft_operator_data_witness :
    ((1 ≤ 2 ∧ (0 : ℚ) < 1) ∧
      (computeM2lOperatorsFft (0 : ℕ) (fun _ _ => 0) (fun _ _ => 0)
          (fun _ _ => ((0 : ℚ), (0 : ℚ), (0 : ℚ)))
          (fun _ _ => ((0 : ℚ), (0 : ℚ), (0 : ℚ))) 2
          ⟨0, 0, 0, 1, 1, 1⟩).kernelData.length = 26 ∧
        ∀ b ∈ (computeM2lOperatorsFft (0 : ℕ) (fun _ _ => 0) (fun _ _ => 0)
            (fun _ _ => ((0 : ℚ), (0 : ℚ), (0 : ℚ)))
            (fun _ _ => ((0 : ℚ), (0 : ℚ), (0 : ℚ))) 2
            ⟨0, 0, 0, 1, 1, 1⟩).kernelData,
          b.length = 64 * (2 * 2 * (2 * 2) * (2 * 2 / 2 + 1))) :=
  ⟨⟨by decide, by norm_num⟩,
    c6_fft_operator_data 0 (fun _ _ => 0) (fun _ _ => 0)
      (fun _ _ => ((0 : ℚ), (0 : ℚ), (0 : ℚ)))
      (fun _ _ => ((0 : ℚ), (0 : ℚ), (0 : ℚ))) 2 ⟨0, 0, 0, 1, 1, 1⟩
      (by decide) (by norm_num) (by norm_num) (by norm_num)⟩

end GreenKernels

namespace GreenKernels

theorem fftSiblings_length (dom : Domain) : (fftSiblings dom).length = 8 := by
  simp [fftSiblings, Key.siblings, Key.children]

theorem fftHaloChildren_elem_length (dom : Domain) (i : Nat)
    (hi : i < (fftHaloChildren dom).length) :
    ((fftHaloChildren dom).getD i []).length = 8 := by
  rw [List.getD_eq_getElem?_getD, List.getElem?_eq_getElem hi, Option.getD_some]
  show ((fftHalo dom).map Key.children)[i].length = 8
  rw [List.getElem_map]
  simp [Key.children]

/-- C4: at every halo position `i < 26` and pair index `j < 64` (sibling-major:
target is sibling `j / 8`, source is halo child `j % 8`), the `size_real`-long
block stored at offset `j * size_real` of the flat per-halo kernel data is the
real FFT of the flipped, zero-padded kernel grid against the representative
target-check point when the source is a child of a neighbor of the target's
parent that is not adjacent to the target, and an explicit all-zero block of
the same length otherwise. -/
theorem c4_fft_block_dispatch {β : Type _} (z : β) (F : List ℚ → Nat → β)
    (K : Pt → Pt → ℚ) (convGridF surfF : Key → Nat → Pt) (order : Nat)
    (dom : Domain) (i j : Nat) (hi : i < (fftHaloChildren dom).length)
    (hj : j < 64) :
    ((((computeM2lOperatorsFft z F K convGridF surfF order dom).kernelData.getD i
          []).drop (j * fftSizeReal order)).take (fftSizeReal order) =
        (if (∃ pn ∈ ((fftSiblings dom).getD (j / 8) default).parent.neighbors,
              ((fftHaloChildren dom).getD i []).getD (j % 8) default ∈ pn.children) ∧
            ((fftSiblings dom).getD (j / 8) default).isAdjacent
              (((fftHaloChildren dom).getD i []).getD (j % 8) default) = false
          then fftKernelBlock F K convGridF surfF order
              (((fftHaloChildren dom).getD i []).getD (j % 8) default)
              ((fftSiblings dom).getD (j / 8) default)
          else List.replicate (fftSizeReal order) z)) ∧
      ((((computeM2lOperatorsFft z F K convGridF surfF order dom).kernelData.getD i
          []).drop (j * fftSizeReal order)).take (fftSizeReal order)).length =
        fftSizeReal order := by
  have hi' : i < (fftKernelDataVec z F K convGridF surfF order dom).length := by
    simpa [fftKernelDataVec] using hi
  set blocks := (fftKernelDataVec z F K convGridF surfF order dom).get ⟨i, hi'⟩
    with hblocksdef
  have hblocksmem : blocks ∈ fftKernelDataVec z F K convGridF surfF order dom := by
    rw [hblocksdef, List.get_eq_getElem]
    exact List.getElem_mem hi'
  -- the flat per-halo array is the concatenation of the 64 blocks
  have hkd : (computeM2lOperatorsFft z F K convGridF surfF order dom).kernelData.getD
      i [] = (List.range 64).flatMap fun j2 =>
        blocks.getD j2 (List.replicate (fftSizeReal order) z) := by
    show ((fftKernelDataVec z F K convGridF surfF order dom).map fun bl =>
        (List.range 64).flatMap fun j2 =>
          bl.getD j2 (List.replicate (fftSizeReal order) z)).getD i [] = _
    rw [List.getD_eq_getElem?_getD,
      List.getElem?_eq_getElem (by simpa using hi'), Option.getD_some,
      List.getElem_map, hblocksdef, List.get_eq_getElem]
  have hconstlen : ∀ x ∈ List.range 64,
      (blocks.getD x (List.replicate (fftSizeReal order) z)).length =
        fftSizeReal order := by
    intro x _
    exact getD_length_const blocks _ (fftSizeReal order) x
      (fftKernelDataVec_blocks_length z F K convGridF surfF order dom blocks
        hblocksmem) (by simp)
  have hslice : (((computeM2lOperatorsFft z F K convGridF surfF order dom
        ).kernelData.getD i []).drop (j * fftSizeReal order)).take
        (fftSizeReal order) =
      blocks.getD j (List.replicate (fftSizeReal order) z) := by
    rw [hkd, drop_take_bind _ _ (fftSizeReal order) hconstlen j (by simpa using hj)]
    congr 1
    simp [List.get_eq_getElem]
  -- identify block `j` with the dispatch on the pair (sibling j/8, halo child j%8)
  have hsibs : j / 8 < (fftSiblings dom).length := by
    rw [fftSiblings_length]; omega
  have hhcs : ((fftHaloChildren dom).getD i []).length = 8 :=
    fftHaloChildren_elem_length dom i hi
  have hinner : ∀ s ∈ fftSiblings dom,
      (((fftHaloChildren dom).getD i []).map fun haloChild =>
        fftBlockOrZero z F K convGridF surfF order haloChild s).length = 8 := by
    intro s _
    rw [List.length_map, hhcs]
  have hblockseq : blocks = (fftSiblings dom).flatMap fun sibling =>
      ((fftHaloChildren dom).getD i []).map fun haloChild =>
        fftBlockOrZero z F K convGridF surfF order haloChild sibling := by
    rw [hblocksdef, List.get_eq_getElem]
    show (List.map _ (fftHaloChildren dom))[i] = _
    rw [List.getElem_map]
    congr 1
    rw [List.getD_eq_getElem?_getD, List.getElem?_eq_getElem hi, Option.getD_some]
  have hgetblock : blocks.getD j (List.replicate (fftSizeReal order) z) =
      fftBlockOrZero z F K convGridF surfF order
        (((fftHaloChildren dom).getD i []).getD (j % 8) default)
        ((fftSiblings dom).getD (j / 8) default) := by
    have hlen64 : blocks.length = 64 := by
      rw [hblockseq, length_bind_const _ _ 8 hinner, fftSiblings_length]
    have hsrcD : ((fftHaloChildren dom).getD i []).getD (j % 8) default =
        ((fftHaloChildren dom).getD i []).get ⟨j % 8, by rw [hhcs]; omega⟩ := by
      rw [List.getD_eq_getElem?_getD,
        List.getElem?_eq_getElem (by rw [hhcs]; omega), Option.getD_some,
        List.get_eq_getElem]
    have htgtD : (fftSiblings dom).getD (j / 8) default =
        (fftSiblings dom).get ⟨j / 8, hsibs⟩ := by
      rw [List.getD_eq_getElem?_getD, List.getElem?_eq_getElem hsibs,
        Option.getD_some, List.get_eq_getElem]
    have hq : blocks.get? j = some (fftBlockOrZero z F K convGridF surfF order
        (((fftHaloChildren dom).getD i []).getD (j % 8) default)
        ((fftSiblings dom).getD (j / 8) default)) := by
      conv_lhs => rw [hblockseq, show j = (j / 8) * 8 + j % 8 by omega]
      rw [get?_bind_const _ _ 8 hinner (j / 8) (j % 8) hsibs (by omega)]
      rw [List.get?_eq_getElem?, List.getElem?_map,
        List.getElem?_eq_getElem (by rw [hhcs]; omega)]
      simp only [Option.map_some']
      rw [hsrcD, htgtD, List.get_eq_getElem, List.get_eq_getElem]
    rw [List.getD_eq_getElem?_getD, ← List.get?_eq_getElem?, hq, Option.getD_some]
  constructor
  · rw [hslice, hgetblock, fftBlockOrZero]
    by_cases hmem : (((fftHaloChildren dom).getD i []).getD (j % 8) default) ∈
        vList ((fftSiblings dom).getD (j / 8) default)
    · rw [if_pos hmem, if_pos ((mem_vList_iff _ _).mp hmem)]
    · rw [if_neg hmem, if_neg (fun hcon => hmem ((mem_vList_iff _ _).mpr hcon))]
  · rw [hslice]
    exact hconstlen j (by simpa using hj)
end GreenKernels

namespace GreenKernels

/-- Domain used by the C4 witness: the unit cube. -/
def cbDom : Domain := ⟨0, 0, 0, 1, 1, 1⟩

/-- Trivial real-FFT collaborator used by the C4 witness. -/
def cbF : List ℚ → Nat → ℕ := fun _ _ => 0

/-- Trivial kernel collaborator used by the C4 witness. -/
def cbK : Pt → Pt → ℚ := fun _ _ => 0

/-- Trivial point-set collaborator used by the C4 witness. -/
def cbG : Key → Nat → Pt := fun _ _ => (0, 0, 0)

/-- Witness for C4: order 2 on the unit cube, halo position 0, pair 0. -/
theorem c4_fft_block_dispatch_witness :
    0 < (fftHaloChildren cbDom).length ∧ (0 : Nat) < 64 ∧
    (((((computeM2lOperatorsFft (0 : ℕ) cbF cbK cbG cbG 2 cbDom).kernelData.getD 0
          []).drop (0 * fftSizeReal 2)).take (fftSizeReal 2) =
        (if (∃ pn ∈ ((fftSiblings cbDom).getD (0 / 8) default).parent.neighbors,
              ((fftHaloChildren cbDom).getD 0 []).getD (0 % 8) default ∈
                pn.children) ∧
            ((fftSiblings cbDom).getD (0 / 8) default).isAdjacent
              (((fftHaloChildren cbDom).getD 0 []).getD (0 % 8) default) = false
          then fftKernelBlock cbF cbK cbG cbG 2
              (((fftHaloChildren cbDom).getD 0 []).getD (0 % 8) default)
              ((fftSiblings cbDom).getD (0 / 8) default)
          else List.replicate (fftSizeReal 2) 0)) ∧
      ((((computeM2lOperatorsFft (0 : ℕ) cbF cbK cbG cbG 2 cbDom).kernelData.getD 0
          []).drop (0 * fftSizeReal 2)).take (fftSizeReal 2)).length =
        fftSizeReal 2) := by
  have h26 : (fftHaloChildren cbDom).length = 26 := by
    show ((fftHalo cbDom).map Key.children).length = 26
    rw [List.length_map,
      fftHalo_center_length cbDom (by norm_num [cbDom]) (by norm_num [cbDom])
        (by norm_num [cbDom])]
  exact ⟨by rw [h26]; omega, by omega,
    c4_fft_block_dispatch 0 cbF cbK cbG cbG 2 cbDom 0 0 (by rw [h26]; omega)
      (by omega)⟩

end GreenKernels

namespace GreenKernels

section

variable {α : Type _} [CommRing α]

/-! ## Upward-pass embeddings (`src/fmm/src/field_translation/source.rs`)

Tree state is passed explicitly: keys are naturals with `parent k = k / 8` and
children `8*p .. 8*p+7` (modelled from the spec's Morton-key invariants:
siblings share a parent and are exactly 8, and per-level key lists are sorted
with dense `key → contiguous index` maps).  The external dense kernels of
`rlst` (`dot`, `cmp_wise_product`) are modelled as exact rational matrix
arithmetic, and `kernel.evaluate_st` as an abstract function. -/

/-- Modelled from the spec: `find_chunk_size` (crate helpers, not under `src/`)
picks the parallel chunk size of a pass, bounded by the per-pass maximum;
modelled as the largest size not exceeding the bound that evenly divides the
work items, so that `par_chunks_exact` drops nothing. -/
def findChunkSize (n maxSize : Nat) : Nat :=
  ((((List.range maxSize).map fun i => maxSize - i).find? fun d => n % d == 0)).getD 1

/-- Rayon's `par_chunks_exact`: successive disjoint chunks of exactly `sz`
elements, dropping the remainder. -/
def chunksExact {α : Type _} (sz : Nat) (l : List α) : List (List α) :=
  (List.range (l.length / sz)).map fun i => (l.drop (i * sz)).take sz

/-- Dot product over matching positions, as the dense `rlst` kernels compute it. -/
def dotQ (a b : List α) : α := ((a.zip b).map fun p => p.1 * p.2).sum

/-- Matrix–vector product: rows of `mat` against `v`. -/
def matVec (mat : List (List α)) (v : List α) : List α := mat.map fun row => dotQ row v

/-- Accumulation `dst.iter_mut().zip(src).for_each(|(d, s)| *d += *s)`: add `src` into `dst`
entry-wise, leaving entries of `dst` beyond `src.length` unchanged. -/
def accumInto (dst src : List α) : List α :=
  (List.zipWith (· + ·) dst src) ++ dst.drop src.length

/-- Writing a freshly computed vector over a zero-initialised buffer of length
`len`. -/
def writeBuf (len : Nat) (v : List α) : List α :=
  v.take len ++ List.replicate (len - v.length) 0

/-- Stage 1 of `p2m` for `FmmDataUniform` (source.rs): the flat
`nleaves * ncoeffs` check-potential buffer, zero-initialised
(`rlst_col_vec!`).  For each leaf, its charges and coordinates are sliced by
`charge_index_pointer`; when the leaf owns at least one source point the
external kernel (`kernelEval coords surface charges`, modelling
`kernel.evaluate_st`) writes the leaf's check potentials, otherwise the
zero segment is left untouched.  The parallel zip processes the minimum of the
three stream lengths. -/
def p2mCheckPotentialsUniform (nc dim : Nat)
    (kernelEval : List α → List α → List α → List α)
    (nleaves : Nat) (leafSurfaces : List α) (cips : List (Nat × Nat))
    (charges coordinates : List α) : List α :=
  let surfaceSize := nc * dim
  let nproc := min (min nleaves (leafSurfaces.length / surfaceSize)) cips.length
  (List.range nleaves).flatMap fun i =>
    if i < nproc then
      let cip := cips.getD i (0, 0)
      let leafCharges := (charges.drop cip.1).take (cip.2 - cip.1)
      let leafCoords := (coordinates.drop (cip.1 * dim)).take (cip.2 * dim - cip.1 * dim)
      let nsources := leafCoords.length / dim
      let surface := (leafSurfaces.drop (i * surfaceSize)).take surfaceSize
      if 0 < nsources then writeBuf nc (kernelEval leafCoords surface leafCharges)
      else List.replicate nc 0
    else List.replicate nc 0

/-- The `p2m` pass of `FmmDataUniform` (source.rs): stage 1 computes the check
potentials; stage 2 applies
`uc2e_inv_1 · (uc2e_inv_2 · (check_potential ∘ scale))` over chunks of
`chunk_size` leaves and accumulates each leaf's `ncoeffs` block into its
multipole vector (`leafMult` models the per-leaf storage reached through the
`leaf_multipoles` pointers, keyed by leaf position). -/
def p2mUniform (p2mMaxChunk nc dim : Nat)
    (kernelEval : List α → List α → List α → List α)
    (uc2eInv1 uc2eInv2 : List (List α))
    (leaves : Option (List Nat)) (leafSurfaces : List α) (cips : List (Nat × Nat))
    (charges coordinates scales : List α)
    (leafMult : Nat → List α) : Nat → List α :=
  match leaves with
  | none => leafMult
  | some ls =>
    let nleaves := ls.length
    let checkPotentials :=
      p2mCheckPotentialsUniform nc dim kernelEval nleaves leafSurfaces cips
        charges coordinates
    let chunkSize := findChunkSize nleaves p2mMaxChunk
    let updates := ((chunksExact (nc * chunkSize) checkPotentials).zip
        ((chunksExact chunkSize (List.range nleaves)).zip
          (chunksExact (nc * chunkSize) scales))).flatMap fun cls =>
      (cls.2.1.zip (List.range chunkSize)).map fun li =>
        let col := (cls.1.drop (li.2 * nc)).take nc
        let sCol := (cls.2.2.drop (li.2 * nc)).take nc
        (li.1, matVec uc2eInv1 (matVec uc2eInv2 (List.zipWith (· * ·) col sCol)))
    fun leaf =>
      match updates.find? fun u => u.1 == leaf with
      | some u => accumInto (leafMult leaf) u.2
      | none => leafMult leaf

/-- The `m2m` pass of `FmmDataUniform` (source.rs) at one level: collect the distinct
parents of the level's keys (`HashSet` then sort), slice the contiguous child
multipole storage between the indices of the first and last key, chunk it into
sibling groups of `8 * ncoeffs` (times `chunk_size`), apply the single `m2m`
matrix per group, and accumulate each column into the matching parent's
multipole (`parentMult` models the storage reached through `level_multipoles`
pointers, keyed by parent key). -/
def m2mUniform (m2mMaxChunk nc : Nat) (m2mMat : List (List α))
    (childSources : Option (List Nat)) (keyIndex : Nat → Nat)
    (multipoles : List α) (parentMult : Nat → List α) : Nat → List α :=
  match childSources with
  | none => parentMult
  | some cs =>
    let nsiblings := 8
    let parentTargets := List.insertionSort (· ≤ ·) ((cs.map fun s => s / 8).dedup)
    let nparents := parentTargets.length
    let minIdx := keyIndex (cs.headD 0)
    let maxIdx := keyIndex (cs.getLastD 0)
    let childMultipoles :=
      (multipoles.drop (minIdx * nc)).take ((maxIdx + 1) * nc - minIdx * nc)
    let maxChunkSize := if m2mMaxChunk < nparents then m2mMaxChunk else nparents
    let chunkSize := findChunkSize nparents maxChunkSize
    let updates := ((chunksExact (nsiblings * nc * chunkSize) childMultipoles).zip
        (chunksExact chunkSize parentTargets)).flatMap fun cp =>
      (cp.2.zip (List.range chunkSize)).map fun pt =>
        let col := (cp.1.drop (pt.2 * (nsiblings * nc))).take (nsiblings * nc)
        (pt.1, matVec m2mMat col)
    fun key =>
      match updates.find? fun u => u.1 == key with
      | some u => accumInto (parentMult key) u.2
      | none => parentMult key

/-- Stage 1 of `p2m` for `FmmDataAdaptive` (source.rs) — the adaptive variant
duplicates the uniform pass body verbatim; it is embedded separately so that
the equivalence of the two variants is a statement, not a presupposition. -/
def p2mCheckPotentialsAdaptive (nc dim : Nat)
    (kernelEval : List α → List α → List α → List α)
    (nleaves : Nat) (leafSurfaces : List α) (cips : List (Nat × Nat))
    (charges coordinates : List α) : List α :=
  let surfaceSize := nc * dim
  let nproc := min (min nleaves (leafSurfaces.length / surfaceSize)) cips.length
  (List.range nleaves).flatMap fun i =>
    if i < nproc then
      let cip := cips.getD i (0, 0)
      let leafCharges := (charges.drop cip.1).take (cip.2 - cip.1)
      let leafCoords := (coordinates.drop (cip.1 * dim)).take (cip.2 * dim - cip.1 * dim)
      let nsources := leafCoords.length / dim
      let surface := (leafSurfaces.drop (i * surfaceSize)).take surfaceSize
      if 0 < nsources then writeBuf nc (kernelEval leafCoords surface leafCharges)
      else List.replicate nc 0
    else List.replicate nc 0

/-- The `p2m` pass of `FmmDataAdaptive` (source.rs), duplicated verbatim from the
uniform variant as in the Rust source. -/
def p2mAdaptive (p2mMaxChunk nc dim : Nat)
    (kernelEval : List α → List α → List α → List α)
    (uc2eInv1 uc2eInv2 : List (List α))
    (leaves : Option (List Nat)) (leafSurfaces : List α) (cips : List (Nat × Nat))
    (charges coordinates scales : List α)
    (leafMult : Nat → List α) : Nat → List α :=
  match leaves with
  | none => leafMult
  | some ls =>
    let nleaves := ls.length
    let checkPotentials :=
      p2mCheckPotentialsAdaptive nc dim kernelEval nleaves leafSurfaces cips
        charges coordinates
    let chunkSize := findChunkSize nleaves p2mMaxChunk
    let updates := ((chunksExact (nc * chunkSize) checkPotentials).zip
        ((chunksExact chunkSize (List.range nleaves)).zip
          (chunksExact (nc * chunkSize) scales))).flatMap fun cls =>
      (cls.2.1.zip (List.range chunkSize)).map fun li =>
        let col := (cls.1.drop (li.2 * nc)).take nc
        let sCol := (cls.2.2.drop (li.2 * nc)).take nc
        (li.1, matVec uc2eInv1 (matVec uc2eInv2 (List.zipWith (· * ·) col sCol)))
    fun leaf =>
      match updates.find? fun u => u.1 == leaf with
      | some u => accumInto (leafMult leaf) u.2
      | none => leafMult leaf

/-- The `m2m` pass of `FmmDataAdaptive` (source.rs), duplicated verbatim from the
uniform variant as in the Rust source. -/
def m2mAdaptive (m2mMaxChunk nc : Nat) (m2mMat : List (List α))
    (childSources : Option (List Nat)) (keyIndex : Nat → Nat)
    (multipoles : List α) (parentMult : Nat → List α) : Nat → List α :=
  match childSources with
  | none => parentMult
  | some cs =>
    let nsiblings := 8
    let parentTargets := List.insertionSort (· ≤ ·) ((cs.map fun s => s / 8).dedup)
    let nparents := parentTargets.length
    let minIdx := keyIndex (cs.headD 0)
    let maxIdx := keyIndex (cs.getLastD 0)
    let childMultipoles :=
      (multipoles.drop (minIdx * nc)).take ((maxIdx + 1) * nc - minIdx * nc)
    let maxChunkSize := if m2mMaxChunk < nparents then m2mMaxChunk else nparents
    let chunkSize := findChunkSize nparents maxChunkSize
    let updates := ((chunksExact (nsiblings * nc * chunkSize) childMultipoles).zip
        (chunksExact chunkSize parentTargets)).flatMap fun cp =>
      (cp.2.zip (List.range chunkSize)).map fun pt =>
        let col := (cp.1.drop (pt.2 * (nsiblings * nc))).take (nsiblings * nc)
        (pt.1, matVec m2mMat col)
    fun key =>
      match updates.find? fun u => u.1 == key with
      | some u => accumInto (parentMult key) u.2
      | none => parentMult key

/-- The M2M gathering described by the spec sentence behind C1: every parent of
a key at the level gathers the multipole coefficients of exactly its existing
children (absent children contribute zero coefficients), applies the single
translation matrix, and accumulates into the parent; other boxes are untouched. -/
def m2mSpecGather (nc : Nat) (m2mMat : List (List α)) (cs : List Nat)
    (childMult : Nat → List α) (parentMult : Nat → List α) : Nat → List α :=
  fun key =>
    if key ∈ cs.map fun s => s / 8 then
      let gathered := (List.range 8).flatMap fun c =>
        if 8 * key + c ∈ cs then childMult (8 * key + c) else List.replicate nc 0
      accumInto (parentMult key) (matVec m2mMat gathered)
    else parentMult key


end
end GreenKernels

namespace GreenKernels

/-! ## Claim theorems for the upward pass -/

/-- C7: the uniform and adaptive FMM data variants implement the upward-pass
translations identically — for every input state (chunk bound, coefficient
count, kernel, operator matrices, tree state, charges, surfaces, scales), the
`p2m` and `m2m` embeddings of `FmmDataUniform` and `FmmDataAdaptive` compute
the same multipole data. -/
theorem c7_uniform_adaptive_equivalent {α : Type _} [CommRing α]
    (p2mMaxChunk m2mMaxChunk nc dim : Nat)
    (kernelEval : List α → List α → List α → List α)
    (uc2eInv1 uc2eInv2 m2mMat : List (List α))
    (leaves : Option (List Nat)) (leafSurfaces : List α) (cips : List (Nat × Nat))
    (charges coordinates scales : List α) (leafMult : Nat → List α)
    (childSources : Option (List Nat)) (keyIndex : Nat → Nat)
    (multipoles : List α) (parentMult : Nat → List α) :
    p2mUniform p2mMaxChunk nc dim kernelEval uc2eInv1 uc2eInv2 leaves leafSurfaces
        cips charges coordinates scales leafMult =
      p2mAdaptive p2mMaxChunk nc dim kernelEval uc2eInv1 uc2eInv2 leaves
        leafSurfaces cips charges coordinates scales leafMult ∧
    m2mUniform m2mMaxChunk nc m2mMat childSources keyIndex multipoles parentMult =
      m2mAdaptive m2mMaxChunk nc m2mMat childSources keyIndex multipoles
        parentMult :=
  ⟨rfl, rfl⟩

theorem writeBuf_length {α : Type _} [CommRing α] (len : Nat) (v : List α) :
    (writeBuf len v).length = len := by
  simp [writeBuf]
  omega

/-- C3: a leaf whose charge-index range is empty contributes no check-potential
kernel evaluation (the result does not depend on the kernel at all, which is
universally quantified and absent from the conclusion), its check-potential
segment stays zero, and the pass is total — in both the uniform and the
adaptive variant. -/
theorem c3_p2m_empty_leaf {α : Type _} [CommRing α] (nc dim : Nat)
    (kernelEval : List α → List α → List α → List α)
    (nleaves : Nat) (leafSurfaces : List α) (cips : List (Nat × Nat))
    (charges coordinates : List α) (i a : Nat)
    (hi : i < nleaves) (hs : i < leafSurfaces.length / (nc * dim))
    (hc : i < cips.length) (hcip : cips.getD i (0, 0) = (a, a)) :
    ((p2mCheckPotentialsUniform nc dim kernelEval nleaves leafSurfaces cips
          charges coordinates).drop (i * nc)).take nc = List.replicate nc 0 ∧
    ((p2mCheckPotentialsAdaptive nc dim kernelEval nleaves leafSurfaces cips
          charges coordinates).drop (i * nc)).take nc = List.replicate nc 0 := by
  have hmain : ((p2mCheckPotentialsUniform nc dim kernelEval nleaves leafSurfaces
      cips charges coordinates).drop (i * nc)).take nc = List.replicate nc 0 := by
    rw [p2mCheckPotentialsUniform]
    have hflen : ∀ x ∈ List.range nleaves,
        ((fun i =>
          if i < min (min nleaves (leafSurfaces.length / (nc * dim))) cips.length
          then
            if 0 < ((coordinates.drop ((cips.getD i (0, 0)).1 * dim)).take
                ((cips.getD i (0, 0)).2 * dim - (cips.getD i (0, 0)).1 * dim)
                  ).length / dim
            then writeBuf nc (kernelEval
                ((coordinates.drop ((cips.getD i (0, 0)).1 * dim)).take
                  ((cips.getD i (0, 0)).2 * dim - (cips.getD i (0, 0)).1 * dim))
                ((leafSurfaces.drop (i * (nc * dim))).take (nc * dim))
                ((charges.drop (cips.getD i (0, 0)).1).take
                  ((cips.getD i (0, 0)).2 - (cips.getD i (0, 0)).1)))
            else List.replicate nc 0
          else List.replicate nc 0) x).length = nc := by
      intro x _
      dsimp only
      split
      · split
        · exact writeBuf_length nc _
        · simp
      · simp
    rw [drop_take_bind _ _ nc hflen i (by simpa using hi)]
    have hgi : (List.range nleaves).get ⟨i, by simpa using hi⟩ = i := by
      simp [List.get_eq_getElem]
    rw [hgi]
    rw [if_pos (show i < min (min nleaves (leafSurfaces.length / (nc * dim)))
      cips.length by omega), hcip]
    simp
  have hmain2 : ((p2mCheckPotentialsAdaptive nc dim kernelEval nleaves leafSurfaces
      cips charges coordinates).drop (i * nc)).take nc = List.replicate nc 0 := by
    show ((p2mCheckPotentialsUniform nc dim kernelEval nleaves leafSurfaces cips
      charges coordinates).drop (i * nc)).take nc = List.replicate nc 0
    exact hmain
  exact ⟨hmain, hmain2⟩

/-- Witness for C3: two leaves, the second with the empty range `(1, 1)`. -/
theorem c3_p2m_empty_leaf_witness :
    (1 < 2 ∧ 1 < ([1, 1, 1, 1] : List ℤ).length / (1 * 2) ∧
      1 < [((0 : Nat), (1 : Nat)), (1, 1)].length ∧
      [((0 : Nat), (1 : Nat)), (1, 1)].getD 1 (0, 0) = (1, 1)) ∧
    ((p2mCheckPotentialsUniform 1 2 (fun _ _ _ => [7]) 2 [1, 1, 1, 1]
          [((0 : Nat), (1 : Nat)), (1, 1)] ([5] : List ℤ)
          [2, 3]).drop (1 * 1)).take 1 = List.replicate 1 0 ∧
    ((p2mCheckPotentialsAdaptive 1 2 (fun _ _ _ => [7]) 2 [1, 1, 1, 1]
          [((0 : Nat), (1 : Nat)), (1, 1)] ([5] : List ℤ)
          [2, 3]).drop (1 * 1)).take 1 = List.replicate 1 0 :=
  ⟨⟨by decide, by decide, by decide, by decide⟩,
    c3_p2m_empty_leaf 1 2 (fun _ _ _ => [7]) 2 [1, 1, 1, 1]
      [((0 : Nat), (1 : Nat)), (1, 1)] [5] [2, 3] 1 1
      (by decide) (by decide) (by decide) (by decide)⟩

/-- C1 counterexample: with keys `[0,…,6, 8]` at a level (parent 0 has seven
children, parent 1 has one), one coefficient per box, the summing `1 × 8`
translation matrix, identity key map, child multipoles `[1,…,1,100]` and zero
parent multipoles, the code's `m2m` groups the contiguous slice into blocks of
8: parent 0 receives `107` (including box 8's multipole, which belongs to
parent 1) and parent 1 receives nothing, whereas gathering each parent's
existing children gives parent 1 the value `100`.  The claim that `m2m`
tolerates partially absent children is false on the code. -/
theorem c1_m2m_counterexample :
    m2mUniform 1 1 [[1, 1, 1, 1, 1, 1, 1, 1]] (some [0, 1, 2, 3, 4, 5, 6, 8])
        (fun k => if k = 8 then 7 else k) ([1, 1, 1, 1, 1, 1, 1, 100] : List ℤ)
        (fun _ => [0]) 1 =
      [0] ∧
    m2mSpecGather 1 [[1, 1, 1, 1, 1, 1, 1, 1]] [0, 1, 2, 3, 4, 5, 6, 8]
        (fun k => ((([1, 1, 1, 1, 1, 1, 1, 100] : List ℤ)).drop
          ((if k = 8 then 7 else k) * 1)).take 1)
        (fun _ => [0]) 1 = [100] ∧
    m2mUniform 1 1 [[1, 1, 1, 1, 1, 1, 1, 1]] (some [0, 1, 2, 3, 4, 5, 6, 8])
        (fun k => if k = 8 then 7 else k) ([1, 1, 1, 1, 1, 1, 1, 100] : List ℤ)
        (fun _ => [0]) 1 ≠
      m2mSpecGather 1 [[1, 1, 1, 1, 1, 1, 1, 1]] [0, 1, 2, 3, 4, 5, 6, 8]
        (fun k => ((([1, 1, 1, 1, 1, 1, 1, 100] : List ℤ)).drop
          ((if k = 8 then 7 else k) * 1)).take 1)
        (fun _ => [0]) 1 := by
  refine ⟨by decide, by decide, by decide⟩

end GreenKernels

namespace GreenKernels

/-! ## Chunking lemmas for the amended M2M statement -/

theorem findChunkSize_dvd (n m : Nat) : findChunkSize n m ∣ n := by
  rw [findChunkSize]
  rcases hfind : (((List.range m).map fun i => m - i).find? fun d => n % d == 0)
    with _ | d
  · simp
  · simp only [Option.getD_some]
    have hp := List.find?_some hfind
    exact Nat.dvd_of_mod_eq_zero (by simpa using hp)

theorem findChunkSize_pos (n m : Nat) : 0 < findChunkSize n m := by
  rw [findChunkSize]
  rcases hfind : (((List.range m).map fun i => m - i).find? fun d => n % d == 0)
    with _ | d
  · simp
  · simp only [Option.getD_some]
    have hmem := List.mem_of_find?_eq_some hfind
    obtain ⟨i, hi, hd⟩ := List.mem_map.mp hmem
    have hlt : i < m := List.mem_range.mp hi
    omega

theorem chunksExact_length {α : Type _} (sz : Nat) (l : List α) :
    (chunksExact sz l).length = l.length / sz := by
  simp [chunksExact]

theorem chunksExact_getElem {α : Type _} (sz : Nat) (l : List α) (q : Nat)
    (hq : q < (chunksExact sz l).length) :
    (chunksExact sz l)[q] = (l.drop (q * sz)).take sz := by
  show ((List.range (l.length / sz)).map fun i => (l.drop (i * sz)).take sz)[q] = _
  rw [List.getElem_map]
  simp

theorem chunksExact_mem_length {α : Type _} (sz : Nat) (l : List α) :
    ∀ x ∈ chunksExact sz l, x.length = sz := by
  intro x hx
  obtain ⟨q, hq, rfl⟩ := List.mem_map.mp hx
  have hq' : q < l.length / sz := List.mem_range.mp hq
  have h1 : q + 1 ≤ l.length / sz := hq'
  have h2 : (q + 1) * sz ≤ (l.length / sz) * sz := Nat.mul_le_mul_right _ h1
  have h3 : (l.length / sz) * sz ≤ l.length := Nat.div_mul_le_self _ _
  have h4 : q * sz + sz ≤ l.length := by rw [Nat.succ_mul] at h2; omega
  simp only [List.length_take, List.length_drop]
  omega

theorem chunked_updates {α β : Type _} (B cs0 : Nat) (hB : 0 < B) (hcs : 0 < cs0)
    (g : List α → β) (f : Nat → List α) (P : List Nat)
    (hdvd : cs0 ∣ P.length) (hf : ∀ p ∈ P, (f p).length = B) :
    (((chunksExact (B * cs0) (P.flatMap f)).zip (chunksExact cs0 P)).flatMap
        fun cp => (cp.2.zip (List.range cs0)).map fun pt =>
          (pt.1, g ((cp.1.drop (pt.2 * B)).take B))) =
      P.map fun p => (p, g (f p)) := by
  have hCl : (P.flatMap f).length = P.length * B := length_bind_const _ _ B hf
  have hnC : (chunksExact (B * cs0) (P.flatMap f)).length = P.length / cs0 := by
    rw [chunksExact_length, hCl, show B * cs0 = cs0 * B from Nat.mul_comm _ _,
      Nat.mul_div_mul_right _ _ hB]
  have hnP : (chunksExact cs0 P).length = P.length / cs0 := by
    rw [chunksExact_length]
  have hzl : ((chunksExact (B * cs0) (P.flatMap f)).zip
      (chunksExact cs0 P)).length = P.length / cs0 := by
    rw [List.length_zip, hnC, hnP, Nat.min_self]
  have hinner : ∀ cp ∈ (chunksExact (B * cs0) (P.flatMap f)).zip
      (chunksExact cs0 P),
      ((cp.2.zip (List.range cs0)).map fun pt =>
        (pt.1, g ((cp.1.drop (pt.2 * B)).take B))).length = cs0 := by
    intro cp hcp
    have h2 := (List.of_mem_zip (show (cp.1, cp.2) ∈ _ by simpa using hcp)).2
    have hl2 : cp.2.length = cs0 := chunksExact_mem_length cs0 P cp.2 h2
    rw [List.length_map, List.length_zip, hl2, List.length_range, Nat.min_self]
  apply List.ext_get?
  intro i
  rcases Nat.lt_or_ge i P.length with hi | hi
  · have hq : i / cs0 < P.length / cs0 := Nat.div_lt_div_of_lt_of_dvd hdvd hi
    have hr : i % cs0 < cs0 := Nat.mod_lt _ hcs
    have hidx : i = (i / cs0) * cs0 + i % cs0 := by
      conv_lhs => rw [← Nat.div_add_mod i cs0]
      ring
    have h1 : i / cs0 + 1 ≤ P.length / cs0 := hq
    have h2 : (i / cs0 + 1) * cs0 ≤ (P.length / cs0) * cs0 :=
      Nat.mul_le_mul_right _ h1
    have h3 : (P.length / cs0) * cs0 = P.length := Nat.div_mul_cancel hdvd
    have hbound : (i / cs0) * cs0 + cs0 ≤ P.length := by
      rw [Nat.succ_mul] at h2; omega
    have hlt : (i / cs0) * cs0 + i % cs0 < P.length := by omega
    conv_lhs => rw [hidx]
    rw [get?_bind_const _ _ cs0 hinner (i / cs0) (i % cs0)
      (by rw [hzl]; exact hq) hr]
    have hzget : (((chunksExact (B * cs0) (P.flatMap f)).zip
        (chunksExact cs0 P)).get ⟨i / cs0, by rw [hzl]; exact hq⟩) =
        (((P.flatMap f).drop ((i / cs0) * (B * cs0))).take (B * cs0),
          (P.drop ((i / cs0) * cs0)).take cs0) := by
      rw [List.get_eq_getElem, List.getElem_zip]
      exact Prod.ext (chunksExact_getElem _ _ _ (by rw [hnC]; exact hq))
        (chunksExact_getElem _ _ _ (by rw [hnP]; exact hq))
    rw [hzget]
    have hPq : ((P.drop ((i / cs0) * cs0)).take cs0).length = cs0 := by
      simp only [List.length_take, List.length_drop]
      omega
    rw [List.get?_eq_getElem?, List.getElem?_map,
      List.getElem?_eq_getElem (show i % cs0 <
        (((P.drop ((i / cs0) * cs0)).take cs0).zip (List.range cs0)).length by
          rw [List.length_zip, hPq, List.length_range, Nat.min_self]; exact hr),
      List.getElem_zip]
    simp only [Option.map_some', List.getElem_range]
    have hsliceC : (((((P.flatMap f).drop ((i / cs0) * (B * cs0))).take
        (B * cs0)).drop ((i % cs0) * B)).take B) =
        f (P.get ⟨(i / cs0) * cs0 + i % cs0, hlt⟩) := by
      rw [List.drop_take, List.drop_drop, List.take_take]
      have hmin : min B (B * cs0 - (i % cs0) * B) = B := by
        have h5 : (i % cs0 + 1) * B ≤ cs0 * B := Nat.mul_le_mul_right _ hr
        rw [Nat.succ_mul] at h5
        have hbc : B * cs0 = cs0 * B := Nat.mul_comm _ _
        rw [hbc]
        omega
      rw [hmin, show (i / cs0) * (B * cs0) + (i % cs0) * B =
        ((i / cs0) * cs0 + i % cs0) * B by ring]
      exact drop_take_bind P f B hf ((i / cs0) * cs0 + i % cs0) hlt
    rw [hsliceC]
    have hPget : getElem ((P.drop ((i / cs0) * cs0)).take cs0) (i % cs0)
        (by rw [hPq]; exact hr) = P.get ⟨(i / cs0) * cs0 + i % cs0, hlt⟩ := by
      rw [List.getElem_take, List.getElem_drop, List.get_eq_getElem]
    rw [hPget]
    rw [List.get?_eq_getElem?, List.getElem?_map,
      List.getElem?_eq_getElem (show i < P.length from hi)]
    simp only [Option.map_some']
    have hieq : (i / cs0) * cs0 + i % cs0 = i := hidx.symm
    have hgeteq : P.get ⟨(i / cs0) * cs0 + i % cs0, hlt⟩ = P.get ⟨i, hi⟩ := by
      congr 1
      exact Fin.ext hieq
    rw [hgeteq, List.get_eq_getElem]
  · rw [List.get?_eq_none.mpr, List.get?_eq_none.mpr]
    · rw [List.length_map]; exact hi
    · rw [length_bind_const _ _ cs0 hinner, hzl, Nat.div_mul_cancel hdvd]
      exact hi

end GreenKernels

namespace GreenKernels

/-- The parent collection of `m2m` (`HashSet` then sort), evaluated on a level
whose keys are complete sorted sibling groups over the sorted parent list `P`:
it recovers exactly `P`. -/
theorem parents_of_complete (P : List Nat) (hsort : List.Sorted (· < ·) P) :
    List.insertionSort (· ≤ ·)
      (((P.flatMap fun p => (List.range 8).map fun c => 8 * p + c).map
        fun s => s / 8).dedup) = P := by
  have hperp : ∀ p : Nat, ((List.range 8).map fun c => 8 * p + c).map
      (fun s => s / 8) = List.replicate 8 p := by
    intro p
    rw [List.map_map]
    have hpt : ∀ c ∈ List.range 8,
        ((fun s => s / 8) ∘ fun c => 8 * p + c) c = (fun _ => p) c := by
      intro c hc
      have hc8 : c < 8 := List.mem_range.mp hc
      simp only [Function.comp]
      omega
    rw [List.map_congr_left hpt, List.map_const', List.length_range]
  have hmap : (P.flatMap fun p => (List.range 8).map fun c => 8 * p + c).map
      (fun s => s / 8) = P.flatMap fun p => List.replicate 8 p := by
    rw [List.map_flatMap]
    congr 1
    funext p
    exact hperp p
  rw [hmap]
  have hmem : ∀ a : Nat, a ∈ (P.flatMap fun p => List.replicate 8 p) ↔ a ∈ P := by
    intro a
    constructor
    · intro ha
      obtain ⟨p, hp, hrep⟩ := List.mem_flatMap.mp ha
      rw [List.eq_of_mem_replicate hrep]
      exact hp
    · intro ha
      exact List.mem_flatMap.mpr ⟨a, ha, by simp⟩
  have hnodupP : P.Nodup := hsort.nodup
  have hperm : List.Perm ((P.flatMap fun p => List.replicate 8 p).dedup) P := by
    rw [List.perm_ext_iff_of_nodup (List.nodup_dedup _) hnodupP]
    intro a
    rw [List.mem_dedup]
    exact hmem a
  exact List.eq_of_perm_of_sorted
    ((List.perm_insertionSort _ _).trans hperm)
    (List.sorted_insertionSort _ _)
    (hsort.imp fun h => le_of_lt h)

theorem find?_updates_mem {β : Type _} (P : List Nat) (v : Nat → β) (p : Nat)
    (hp : p ∈ P) :
    (P.map fun q => (q, v q)).find? (fun u => u.1 == p) = some (p, v p) := by
  induction P with
  | nil => simp at hp
  | cons a t ih =>
    rw [List.map_cons, List.find?_cons]
    by_cases hap : a = p
    · subst hap
      simp
    · have hbeq : (((a, v a) : Nat × β).1 == p) = false := by
        simp [hap]
      rw [hbeq]
      have hpt : p ∈ t := by
        rcases List.mem_cons.mp hp with h | h
        · exact absurd h.symm hap
        · exact h
      exact ih hpt

theorem find?_updates_not_mem {β : Type _} (P : List Nat) (v : Nat → β) (p : Nat)
    (hp : p ∉ P) :
    (P.map fun q => (q, v q)).find? (fun u => u.1 == p) = none := by
  rw [List.find?_eq_none]
  intro x hmem hbeq
  obtain ⟨q, hq, heq⟩ := List.mem_map.mp hmem
  apply hp
  have hxq : x.1 = q := by rw [← heq]
  have hqp : x.1 = p := by simpa using hbeq
  rw [← hxq, hqp] at hq
  exact hq

end GreenKernels

namespace GreenKernels

/-- C1 (amended): `m2m` requires complete sibling groups.  On a level whose
keys are the full sorted sibling groups of a sorted parent list `P` — every
parent's 8 children present, the key-to-index map placing the level's
multipoles contiguously (hypothesis `hslice`: the slice the code takes between
the indices of the first and last key is the concatenation of the per-parent
`8 * ncoeffs` child blocks) — both variants of `m2m` apply the single
translation matrix to each parent's 8 gathered children and accumulate into
that parent, leaving every other box untouched.  Partially absent children are
not tolerated (see the counterexample). -/
theorem c1_m2m_sibling_groups {α : Type _} [CommRing α]
    (maxChunk nc : Nat) (hnc : 0 < nc) (m2mMat : List (List α))
    (P : List Nat) (hsort : List.Sorted (· < ·) P)
    (keyIndex : Nat → Nat) (multipoles : List α)
    (childVec : Nat → List α) (hlen : ∀ p ∈ P, (childVec p).length = 8 * nc)
    (parentMult : Nat → List α)
    (hslice : (multipoles.drop (keyIndex
          ((P.flatMap fun p => (List.range 8).map fun c => 8 * p + c).headD 0) *
          nc)).take
        ((keyIndex ((P.flatMap fun p =>
            (List.range 8).map fun c => 8 * p + c).getLastD 0) + 1) * nc -
          keyIndex ((P.flatMap fun p =>
            (List.range 8).map fun c => 8 * p + c).headD 0) * nc) =
      P.flatMap childVec) :
    (∀ p ∈ P,
      m2mUniform maxChunk nc m2mMat
          (some (P.flatMap fun p => (List.range 8).map fun c => 8 * p + c))
          keyIndex multipoles parentMult p =
        accumInto (parentMult p) (matVec m2mMat (childVec p)) ∧
      m2mAdaptive maxChunk nc m2mMat
          (some (P.flatMap fun p => (List.range 8).map fun c => 8 * p + c))
          keyIndex multipoles parentMult p =
        accumInto (parentMult p) (matVec m2mMat (childVec p))) ∧
    (∀ q, q ∉ P →
      m2mUniform maxChunk nc m2mMat
          (some (P.flatMap fun p => (List.range 8).map fun c => 8 * p + c))
          keyIndex multipoles parentMult q = parentMult q ∧
      m2mAdaptive maxChunk nc m2mMat
          (some (P.flatMap fun p => (List.range 8).map fun c => 8 * p + c))
          keyIndex multipoles parentMult q = parentMult q) := by
  have hAU : m2mAdaptive maxChunk nc m2mMat
      (some (P.flatMap fun p => (List.range 8).map fun c => 8 * p + c))
      keyIndex multipoles parentMult =
      m2mUniform maxChunk nc m2mMat
      (some (P.flatMap fun p => (List.range 8).map fun c => 8 * p + c))
      keyIndex multipoles parentMult := rfl
  have hcore : ∀ key,
      m2mUniform maxChunk nc m2mMat
          (some (P.flatMap fun p => (List.range 8).map fun c => 8 * p + c))
          keyIndex multipoles parentMult key =
        match (P.map fun p => (p, matVec m2mMat (childVec p))).find?
            (fun u => u.1 == key) with
        | some u => accumInto (parentMult key) u.2
        | none => parentMult key := by
    intro key
    simp only [m2mUniform]
    rw [parents_of_complete P hsort, hslice,
      chunked_updates (8 * nc)
        (findChunkSize P.length (if maxChunk < P.length then maxChunk
          else P.length))
        (by omega) (findChunkSize_pos _ _) (matVec m2mMat) childVec P
        (findChunkSize_dvd _ _) hlen]
  refine ⟨fun p hp => ?_, fun q hq => ?_⟩
  · rw [hAU, hcore p, find?_updates_mem P _ p hp]
    exact ⟨rfl, rfl⟩
  · rw [hAU, hcore q, find?_updates_not_mem P _ q hq]
    exact ⟨rfl, rfl⟩

end GreenKernels

namespace GreenKernels

/-- Witness for the amended C1 theorem: two parents with all 16 children
present, one coefficient per box, the summing translation matrix. -/
theorem c1_m2m_sibling_groups_witness :
    (1 ∈ [0, 1]) ∧
    m2mUniform 2 1 [[1, 1, 1, 1, 1, 1, 1, 1]]
        (some ([0, 1].flatMap fun p => (List.range 8).map fun c => 8 * p + c))
        (fun k => k)
        ([1, 2, 3, 4, 5, 6, 7, 8, 10, 20, 30, 40, 50, 60, 70, 80] : List ℤ)
        (fun _ => [0]) 1 =
      accumInto ((fun _ => ([0] : List ℤ)) 1)
        (matVec [[1, 1, 1, 1, 1, 1, 1, 1]]
          ((fun p => ((([1, 2, 3, 4, 5, 6, 7, 8, 10, 20, 30, 40, 50, 60, 70, 80] :
            List ℤ)).drop (p * 8)).take 8) 1)) :=
  ⟨by decide,
    (((c1_m2m_sibling_groups 2 1 (by decide) [[1, 1, 1, 1, 1, 1, 1, 1]] [0, 1]
      (by decide) (fun k => k)
      [1, 2, 3, 4, 5, 6, 7, 8, 10, 20, 30, 40, 50, 60, 70, 80]
      (fun p => ((([1, 2, 3, 4, 5, 6, 7, 8, 10, 20, 30, 40, 50, 60, 70, 80] :
        List ℤ)).drop (p * 8)).take 8)
      (by decide) (fun _ => [0]) (by decide)).1 1 (by decide)).1)⟩

end GreenKernels
